import Mathlib

/-!
Shallow embedding of `setuptools_configure/__init__.py`.

It covers the `@name@` substitution engine (`_expand`, `_replace`,
`_substitute`, `substitute`, `flatten`), the cache serializer
(`write_cache`, `parse_cache` together with the `distutils.text_file.TextFile`
logical-line model), the command-line override parser
(`parse_commandline_substitutions`), the `prefixes` generator and the
directory-search loop of `configure.run`, and `validate_constants_module`.

Strings are modelled as `List Char`.  A file's contents are modelled as the
full character stream.  Python dictionaries are association lists with the
dictionary's insertion-order semantics.  Callables (deferred computations)
are modelled as identifiers interpreted by an environment
`denv : Nat → Table → Value`; each invocation is recorded in a log so that
"invoked at most once" is expressible.  Recursion through the mutable table
is made total with a fuel parameter; running out of fuel is a distinguished
error that none of the theorems below confuses with genuine behaviour.
-/

abbrev Str := List Char

/-- Character class `[A-Za-z_]`, the leading character of
`identifier_pattern`. -/
def identStart (c : Char) : Bool :=
  c.isUpper || c.isLower || c == '_'

/-- Character class `[A-Za-z0-9_]`, the continuation characters of
`identifier_pattern`. -/
def identCont (c : Char) : Bool :=
  identStart c || c.isDigit

/-- The characters matched by Python's `\s` (and stripped by `str.strip`)
for the ASCII inputs handled here. -/
def isPySpace (c : Char) : Bool :=
  c == ' ' || c == '\t' || c == '\n' || c == '\r' || c == '\x0b' || c == '\x0c'

/-- One segment recognised while scanning a string with
`substitution_pattern`: an unmatched literal character, an `@@` escape
match, or an `@name@` named-reference match. -/
inductive Seg where
  | lit (c : Char)
  | escaped
  | named (name : Str)
deriving DecidableEq, Repr

/-- Left-to-right scanner for `substitution_pattern` over a string.
The state is `none` between matches and `some acc` after a delimiter
`@` has been seen, with `acc` the identifier characters read so far.
At a position holding `@` the regex first tries the escape alternative
(`@@`), then a named reference (`@identifier@`); when neither matches,
the `@` is left as literal text and scanning resumes at the next
character, exactly like `re.sub`'s scan loop. -/
def parseSegsGo : Option Str → Str → List Seg
  | none, [] => []
  | none, c :: rest =>
    if c == '@' then parseSegsGo (some []) rest
    else .lit c :: parseSegsGo none rest
  | some acc, [] => .lit '@' :: acc.map .lit
  | some acc, c :: rest =>
    if c == '@' then
      match acc with
      | [] => .escaped :: parseSegsGo none rest
      | _ :: _ => .named acc :: parseSegsGo none rest
    else if acc.isEmpty then
      if identStart c then parseSegsGo (some [c]) rest
      else .lit '@' :: .lit c :: parseSegsGo none rest
    else
      if identCont c then parseSegsGo (some (acc ++ [c])) rest
      else .lit '@' :: (acc.map .lit ++ (.lit c :: parseSegsGo none rest))

/-- All non-overlapping `substitution_pattern` matches of a string,
interleaved with the literal characters between them. -/
def parseSegs (s : Str) : List Seg := parseSegsGo none s

/-- The replacement text produced by the literal and escape segments:
each escape match `@@` contributes a single literal `@`. -/
def escRender : List Seg → Str
  | [] => []
  | .lit c :: rest => c :: escRender rest
  | .escaped :: rest => '@' :: escRender rest
  | .named _ :: rest => escRender rest

/-- Whether a segment is a named-reference match. -/
def Seg.isNamed : Seg → Bool
  | .named _ => true
  | _ => false

/-- Values held in a substitution table: strings, callables (deferred
computations, identified by an id interpreted through the deferred
environment), mappings, sequences (with a tag recording the concrete
container type rebuilt by `type(value)(...)`), and anything else. -/
inductive Value where
  | text (s : Str)
  | deferred (id : Nat)
  | mapping (tag : Nat) (entries : List (Value × Value))
  | seq (tag : Nat) (items : List Value)
  | other (tag : Nat)

/-- A substitution table: a Python dict from names to values. -/
abbrev Table := List (Str × Value)

/-- Dictionary lookup (`d[k]` / `k in d`). -/
def alookup {α : Type} : List (Str × α) → Str → Option α
  | [], _ => none
  | (k, v) :: rest, key => if k = key then some v else alookup rest key

/-- Dictionary assignment `d[k] = v`: replace in place if the key exists
(keeping its position), otherwise append. -/
def dictInsert {α : Type} : List (Str × α) → Str → α → List (Str × α)
  | [], key, val => [(key, val)]
  | (k, v) :: rest, key, val =>
    if k = key then (k, val) :: rest else (k, v) :: dictInsert rest key val

mutual
/-- Number of occurrences of the deferred id `i` anywhere inside a value. -/
def occV (i : Nat) : Value → Nat
  | .text _ => 0
  | .deferred j => if j = i then 1 else 0
  | .mapping _ es => occP i es
  | .seq _ xs => occL i xs
  | .other _ => 0

/-- Occurrences of the deferred id `i` in a list of values. -/
def occL (i : Nat) : List Value → Nat
  | [] => 0
  | v :: vs => occV i v + occL i vs

/-- Occurrences of the deferred id `i` in a list of key-value pairs. -/
def occP (i : Nat) : List (Value × Value) → Nat
  | [] => 0
  | p :: ps => occV i p.1 + occV i p.2 + occP i ps
end

/-- Occurrences of the deferred id `i` among all values of a table. -/
def occT (i : Nat) (t : Table) : Nat :=
  match t with
  | [] => 0
  | e :: rest => occV i e.2 + occT i rest

/-- Mutable interpreter state: the substitution table (updated in place by
memoization) and the list of deferred-computation invocations so far. -/
structure St where
  table : Table
  log : List Nat

/-- Failures of the engine: `SubstitutionError` (with its message), a
Python-level `TypeError` (a non-string replacement value or a membership
test on a non-container), and fuel exhaustion of the model. -/
inductive SubErr where
  | substitution (msg : Str)
  | typeMismatch
  | fuel
deriving DecidableEq, Repr

/-- Message of the `SubstitutionError` raised for an unknown variable. -/
def unknownMsg (name : Str) : Str :=
  ("Can't expand unknown variable ").toList ++ name

/-- Python `'->'.join chain`. -/
def joinArrow : List Str → Str
  | [] => []
  | [n] => n
  | n :: m :: rest => n ++ ('-' :: '>' :: joinArrow (m :: rest))

/-- Message of the `SubstitutionError` raised when a cycle is detected. -/
def cycleMsg (chain : List Str) : Str :=
  ("Cycle detected: ").toList ++ joinArrow chain

/-- The mutually recursive operations of the engine, packaged as one call
type so that the whole recursion is structural in the fuel counter:
`_substitute`, the match-by-match substitution performed by
`substitution_pattern.sub` with `_replace`, `_expand`, and the structural
traversal `substitute` (on a value, a list, and a mapping's pairs). -/
inductive EngineCall where
  | sub (v : Value) (chain : List Str)
  | segs (ss : List Seg) (chain : List Str)
  | expand (name : Str) (chain : List Str)
  | structV (v : Value)
  | structL (vs : List Value)
  | structP (ps : List (Value × Value))

/-- Results of the engine calls. -/
inductive EngineRet where
  | val (v : Value)
  | strR (s : Str)
  | listR (vs : List Value)
  | pairsR (ps : List (Value × Value))

/-- The substitution engine.  Each case is a direct transcription of the
corresponding Python function:

* `.sub v chain` is `_substitute(v, substitutions, chain)`: a callable is
  invoked with the table; a string with no delimiter is returned unchanged;
  otherwise every `substitution_pattern` match is replaced via `_replace`;
  a non-string value answers Python's `delimiter not in value` membership
  test (raising `TypeError` for non-containers, and for containers that do
  contain the bare delimiter, which `re.sub` would then reject).
* `.segs ss chain` folds `_replace` over the scanner's segments: escapes
  produce a literal delimiter; a named reference first checks the local
  copy of `referenced` for a cycle, then appends the name and expands it;
  a non-string expansion result makes `re.sub` raise `TypeError`.
* `.expand name chain` is `_expand`: unknown names raise, otherwise the
  table's current value is substituted and the result is cached back into
  the table under `name`.
* `.structV`/`.structL`/`.structP` are `substitute`: strings and callables
  go to `_substitute` with a fresh chain, mappings and sequences are
  rebuilt with the same concrete type tag, anything else is returned
  unchanged. -/
def engine (denv : Nat → Table → Value) :
    Nat → EngineCall → St → St × Except SubErr EngineRet
  | 0, _, st => (st, .error .fuel)
  | fuel + 1, c, st =>
    match c with
    | .sub v chain =>
      match v with
      | .deferred i => (⟨st.table, st.log ++ [i]⟩, .ok (.val (denv i st.table)))
      | .text s =>
        if '@' ∈ s then
          match engine denv fuel (.segs (parseSegs s) chain) st with
          | (st', .ok (.strR t)) => (st', .ok (.val (.text t)))
          | (st', .ok _) => (st', .error .typeMismatch)
          | (st', .error e) => (st', .error e)
        else (st, .ok (.val (.text s)))
      | .mapping tag es =>
        if es.any (fun p => match p.1 with | .text k => k == [ '@' ] | _ => false)
        then (st, .error .typeMismatch)
        else (st, .ok (.val (.mapping tag es)))
      | .seq tag xs =>
        if xs.any (fun x => match x with | .text k => k == [ '@' ] | _ => false)
        then (st, .error .typeMismatch)
        else (st, .ok (.val (.seq tag xs)))
      | .other _ => (st, .error .typeMismatch)
    | .segs ss chain =>
      match ss with
      | [] => (st, .ok (.strR []))
      | .lit ch :: rest =>
        match engine denv fuel (.segs rest chain) st with
        | (st', .ok (.strR t)) => (st', .ok (.strR (ch :: t)))
        | other => other
      | .escaped :: rest =>
        match engine denv fuel (.segs rest chain) st with
        | (st', .ok (.strR t)) => (st', .ok (.strR ('@' :: t)))
        | other => other
      | .named n :: rest =>
        if n ∈ chain then
          (st, .error (.substitution (cycleMsg (chain ++ [n]))))
        else
          match engine denv fuel (.expand n (chain ++ [n])) st with
          | (st', .ok (.val (.text t))) =>
            match engine denv fuel (.segs rest chain) st' with
            | (st'', .ok (.strR t2)) => (st'', .ok (.strR (t ++ t2)))
            | other => other
          | (st', .ok _) => (st', .error .typeMismatch)
          | (st', .error e) => (st', .error e)
    | .expand n chain =>
      match alookup st.table n with
      | none => (st, .error (.substitution (unknownMsg n)))
      | some v =>
        match engine denv fuel (.sub v chain) st with
        | (st', .ok (.val r)) => (⟨dictInsert st'.table n r, st'.log⟩, .ok (.val r))
        | (st', .ok _) => (st', .error .typeMismatch)
        | (st', .error e) => (st', .error e)
    | .structV v =>
      match v with
      | .text s => engine denv fuel (.sub (.text s) []) st
      | .deferred i => engine denv fuel (.sub (.deferred i) []) st
      | .mapping tag es =>
        match engine denv fuel (.structP es) st with
        | (st', .ok (.pairsR ps)) => (st', .ok (.val (.mapping tag ps)))
        | (st', .ok _) => (st', .error .typeMismatch)
        | (st', .error e) => (st', .error e)
      | .seq tag xs =>
        match engine denv fuel (.structL xs) st with
        | (st', .ok (.listR rs)) => (st', .ok (.val (.seq tag rs)))
        | (st', .ok _) => (st', .error .typeMismatch)
        | (st', .error e) => (st', .error e)
      | .other tag => (st, .ok (.val (.other tag)))
    | .structL vs =>
      match vs with
      | [] => (st, .ok (.listR []))
      | x :: xs =>
        match engine denv fuel (.structV x) st with
        | (st', .ok (.val r)) =>
          match engine denv fuel (.structL xs) st' with
          | (st'', .ok (.listR rs)) => (st'', .ok (.listR (r :: rs)))
          | (st'', .ok _) => (st'', .error .typeMismatch)
          | (st'', .error e) => (st'', .error e)
        | (st', .ok _) => (st', .error .typeMismatch)
        | (st', .error e) => (st', .error e)
    | .structP ps =>
      match ps with
      | [] => (st, .ok (.pairsR []))
      | p :: rest =>
        match engine denv fuel (.structV p.1) st with
        | (st1, .ok (.val rk)) =>
          match engine denv fuel (.structV p.2) st1 with
          | (st2, .ok (.val rv)) =>
            match engine denv fuel (.structP rest) st2 with
            | (st3, .ok (.pairsR rs)) => (st3, .ok (.pairsR ((rk, rv) :: rs)))
            | (st3, .ok _) => (st3, .error .typeMismatch)
            | (st3, .error e) => (st3, .error e)
          | (st2, .ok _) => (st2, .error .typeMismatch)
          | (st2, .error e) => (st2, .error e)
        | (st1, .ok _) => (st1, .error .typeMismatch)
        | (st1, .error e) => (st1, .error e)

/-- The public `resolve(value, table)` of the specification:
`_substitute(value, substitutions, [])`. -/
def resolveE (denv : Nat → Table → Value) (fuel : Nat) (v : Value) (st : St) :
    St × Except SubErr EngineRet :=
  engine denv fuel (.sub v []) st

/-- `substitute(value, substitutions)`. -/
def substituteE (denv : Nat → Table → Value) (fuel : Nat) (v : Value) (st : St) :
    St × Except SubErr EngineRet :=
  engine denv fuel (.structV v) st

/-- The loop body of `flatten`: iterate over the dictionary's keys, reading
each entry's current value and writing back its substitution.  (Python
iterates a live `items()` view; keys never change, so iterating the initial
key list while reading current values is the same computation.) -/
def flattenGo (denv : Nat → Table → Value) (fuel : Nat) :
    List Str → St → St × Except SubErr Unit
  | [], st => (st, .ok ())
  | k :: ks, st =>
    match alookup st.table k with
    | none => flattenGo denv fuel ks st
    | some v =>
      match engine denv fuel (.structV v) st with
      | (st', .ok (.val r)) =>
        flattenGo denv fuel ks ⟨dictInsert st'.table k r, st'.log⟩
      | (st', .ok _) => (st', .error .typeMismatch)
      | (st', .error e) => (st', .error e)

/-- `flatten(substitutions)`. -/
def flatten (denv : Nat → Table → Value) (fuel : Nat) (st : St) :
    St × Except SubErr Unit :=
  flattenGo denv fuel (st.table.map Prod.fst) st

/-- `config_pattern.fullmatch`: the whole string must be an identifier,
optional whitespace, `=`, optional whitespace and a value, where `.`
does not match a newline.  The identifier run is maximal; the greedy
`\s*` after `=` absorbs leading whitespace of the value, and backtracking
cannot rescue a value that still contains a newline. -/
def config_fullmatch (s : Str) : Option (Str × Str) :=
  match s with
  | [] => none
  | c :: _ =>
    if identStart c then
      let name := s.takeWhile identCont
      let rest := (s.dropWhile identCont).dropWhile isPySpace
      match rest with
      | '=' :: tail =>
        let value := tail.dropWhile isPySpace
        if '\n' ∈ value then none else some (name, value)
      | _ => none
    else none

/-- Index of the first occurrence of a token in a list
(`list.index`, as an option instead of `ValueError`). -/
def firstIndexOf (xs : List Str) (tok : Str) : Option Nat :=
  match xs with
  | [] => none
  | x :: rest =>
    if x = tok then some 0 else (firstIndexOf rest tok).map (· + 1)

/-- The scanning loop of `parse_commandline_substitutions` over
`args[start:]`, carried out exactly as written: `index` enumerates the
sliced list, but the non-flag branch extends `script_args` with
`args[index:]` taken from the full argument list. -/
def pclsGo (args : List Str) :
    List Str → Nat → List Str → List (Str × Str) → List Str × List (Str × Str)
  | [], _, script, subs => (script, subs)
  | arg :: rest, index, script, subs =>
    match config_fullmatch arg with
    | some (n, v) => pclsGo args rest (index + 1) script (dictInsert subs n v)
    | none =>
      if arg.head? = some '-' then
        pclsGo args rest (index + 1) (script ++ [arg]) subs
      else (script ++ args.drop index, subs)

/-- `parse_commandline_substitutions(args)`: everything up to and including
the first `configure` token is pass-through; `args.index` raises
`ValueError` when the token is absent. -/
def parse_commandline_substitutions (args : List Str) :
    Except Unit (List Str × List (Str × Str)) :=
  match firstIndexOf args (("configure").toList) with
  | none => .error ()
  | some i => .ok (pclsGo args (args.drop (i + 1)) 0 (args.take (i + 1)) [])

/-- The part of a string before its last `.`
(`package.rpartition('.')[0]`). -/
def rpartBefore (s : Str) : Str :=
  match s.reverse.dropWhile (fun c => c != '.') with
  | [] => []
  | _ :: restRev => restRev.reverse

/-- The n-th value yielded by the `prefixes` generator.  The generator
first yields `package`; then, while the previous yield is nonempty, it
yields `package.rpartition('.')[0]` — computed from `package`, not from
the previous prefix, so for a dotted package every later yield is the
same string and the generator never terminates. -/
def prefixesAt (pkg : Str) : Nat → Option Str
  | 0 => some pkg
  | Nat.succ n =>
    if pkg = [] then none
    else if rpartBefore pkg = [] then (if n = 0 then some [] else none)
    else some (rpartBefore pkg)

/-- The directory-search loop of `configure.run` over the `prefixes`
generator, with fuel bounding the number of iterations the model will
follow: `none` means the loop has not terminated within the given fuel,
`some (some d)` that it broke out with directory `d`, and `some none`
that the generator was exhausted (so the current directory is used). -/
def findDirLoop (pkgDir : List (Str × Str)) (pkg : Str) :
    Nat → Nat → Option (Option Str)
  | 0, _ => none
  | Nat.succ f, idx =>
    match prefixesAt pkg idx with
    | none => some none
    | some p =>
      match alookup pkgDir p with
      | some d => some (some d)
      | none => findDirLoop pkgDir pkg f (idx + 1)

/-- ASCII model of `str.isidentifier`. -/
def pyIsIdentifier (s : Str) : Bool :=
  match s with
  | [] => false
  | c :: rest => identStart c && rest.all identCont

/-- Python `str.split(sep)` keeping empty fields. -/
def pySplit (sep : Char) : Str → List Str
  | [] => [[]]
  | c :: rest =>
    if c = sep then [] :: pySplit sep rest
    else
      match pySplit sep rest with
      | [] => [[c]]
      | l :: ls => (c :: l) :: ls

/-- Whether `validate_constants_module` raises: the code tests
`all(map(str.isidentifier, value.split('.'))) is None`, and `all` returns
a bool, never `None`. -/
def validate_constants_module (value : Str) : Bool :=
  match (some ((pySplit '.' value).all pyIsIdentifier) : Option Bool) with
  | none => true
  | some _ => false

/-- Whether a dotted name is a sequence of valid identifiers — the
condition the specification says `validate_constants_module` enforces. -/
def validDottedName (value : Str) : Bool :=
  (pySplit '.' value).all pyIsIdentifier

/-- Prepend already-produced replacement text to the string result of a
segment run, leaving failures untouched. -/
def prependStr (p : Str) : St × Except SubErr EngineRet → St × Except SubErr EngineRet
  | (st, .ok (.strR t)) => (st, .ok (.strR (p ++ t)))
  | out => out

/-- The deferred id `i` occurs in the table only as the entire value of an
entry (never nested inside a container).  This is how a deferred
computation is associated with a name. -/
def RootOnly (i : Nat) (t : Table) : Prop :=
  ∀ k v, alookup t k = some v → occV i v ≠ 0 → v = .deferred i

/-- Occurrences of the deferred id `i` inside a call's payload. -/
def occC (i : Nat) : EngineCall → Nat
  | .sub v _ => occV i v
  | .segs _ _ => 0
  | .expand _ _ => 0
  | .structV v => occV i v
  | .structL vs => occL i vs
  | .structP ps => occP i ps

/-- Occurrences of the deferred id `i` inside a result. -/
def occR (i : Nat) : EngineRet → Nat
  | .val v => occV i v
  | .strR _ => 0
  | .listR vs => occL i vs
  | .pairsR ps => occP i ps

/-- Potential of a state: invocations of `i` so far plus remaining
occurrences of `i` in the table. -/
def phi (i : Nat) (st : St) : Nat :=
  st.log.count i + occT i st.table

/-- Entries of the `referenced` chain whose table bindings an engine call
must leave untouched. -/
def framePred : EngineCall → Str → Prop
  | .sub _ chain, n => n ∈ chain
  | .segs _ chain, n => n ∈ chain
  | .expand k chain, n => n ∈ chain ∧ n ≠ k
  | _, _ => False

/-- Well-formedness of a call: `_expand` is only ever invoked by `_replace`
after the target name has been appended to the chain. -/
def callWF : EngineCall → Prop
  | .expand k chain => k ∈ chain
  | _ => True

/-- Bookkeeping facts about one engine step, relative to the deferred id
`i`: keys are preserved, root-only placement of `i` is preserved, chain
entries are untouched, the potential (invocations of `i` plus remaining
occurrences of `i` in the table) grows by at most the occurrences in the
call's payload, and on success the result's occurrences are accounted
for. -/
def AcctOut (i : Nat) (call : EngineCall) (st : St)
    (out : St × Except SubErr EngineRet) : Prop :=
  (out.1.table.map Prod.fst = st.table.map Prod.fst) ∧
  RootOnly i out.1.table ∧
  (∀ n, framePred call n → alookup out.1.table n = alookup st.table n) ∧
  phi i out.1 ≤ phi i st + occC i call ∧
  (∀ ret, out.2 = .ok ret →
    phi i out.1 + occR i ret ≤ phi i st + occC i call ∧
    occR i ret ≤ occC i call)

/-! ## General lemmas about the dictionary model -/

theorem alookup_dictInsert {α : Type} (t : List (Str × α)) (k : Str) (v : α)
    (key : Str) :
    alookup (dictInsert t k v) key = if key = k then some v else alookup t key := by
  induction t with
  | nil =>
    simp only [dictInsert, alookup]
    by_cases h : k = key
    · rw [if_pos h, if_pos h.symm]
    · rw [if_neg h, if_neg (fun h' => h h'.symm)]
  | cons e rest ih =>
    obtain ⟨k1, v1⟩ := e
    simp only [dictInsert]
    by_cases h1 : k1 = k
    · subst h1
      simp only [if_pos rfl, alookup]
      by_cases h2 : k1 = key
      · rw [if_pos h2, if_pos h2.symm]
      · rw [if_neg h2, if_neg (fun h' => h2 h'.symm), if_neg h2]
    · simp only [if_neg h1, alookup, ih]
      by_cases h2 : k1 = key
      · rw [if_pos h2, if_neg (fun h' => h1 (h2.trans h')), if_pos h2]
      · rw [if_neg h2, if_neg h2]

theorem keys_dictInsert {α : Type} (t : List (Str × α)) (k : Str) (v : α)
    (h : k ∈ t.map Prod.fst) :
    (dictInsert t k v).map Prod.fst = t.map Prod.fst := by
  induction t with
  | nil => simp at h
  | cons e rest ih =>
    obtain ⟨k1, v1⟩ := e
    by_cases h1 : k1 = k
    · simp [dictInsert, h1]
    · have h' : k ∈ rest.map Prod.fst := by
        simp only [List.map_cons, List.mem_cons] at h
        rcases h with h | h
        · exact absurd h.symm h1
        · exact h
      simp [dictInsert, h1, ih h']

theorem firstIndexOf_eq_none (xs : List Str) (tok : Str) (h : tok ∉ xs) :
    firstIndexOf xs tok = none := by
  induction xs with
  | nil => rfl
  | cons x rest ih =>
    simp at h
    simp [firstIndexOf, Ne.symm h.1, ih h.2]

/-! ## C1 -/

/-- C1: for the argument list `["setup.py", "configure", "FOO=bar",
"--quiet", "build"]` the override parser does NOT return the pass-through
list `["setup.py", "configure", "--quiet", "build"]` the specification
requires: the non-flag argument `build` makes the loop extend the
pass-through list with `args[index:]`, where `index` counts positions of
the slice `args[start:]` but is applied to the full list, so the
already-consumed `FOO=bar` and `--quiet` are appended again.  This theorem
evaluates the code at the failing input and records that the result
differs from the specified one. -/
theorem C1_override_parser_actual_output :
    parse_commandline_substitutions
      [("setup.py").toList, ("configure").toList, ("FOO=bar").toList,
        ("--quiet").toList, ("build").toList] =
      .ok ([("setup.py").toList, ("configure").toList, ("--quiet").toList,
            ("FOO=bar").toList, ("--quiet").toList, ("build").toList],
           [(("FOO").toList, ("bar").toList)]) ∧
    ([("setup.py").toList, ("configure").toList, ("--quiet").toList,
      ("FOO=bar").toList, ("--quiet").toList, ("build").toList] : List Str) ≠
      [("setup.py").toList, ("configure").toList, ("--quiet").toList,
        ("build").toList] := by
  exact ⟨rfl, by decide⟩

/-! ## C5 -/

/-- Every yield of `prefixes('a.b.c')` after the first is `'a.b'`:
the loop recomputes `package.rpartition('.')` from the unchanged
`package` instead of shortening the previous prefix. -/
theorem prefixesAt_abc (n : Nat) :
    prefixesAt (("a.b.c").toList) (n + 1) = some (("a.b").toList) := rfl

/-- The directory-search loop never gets past the repeated `'a.b'` yield. -/
theorem findDirLoop_abc_stuck (f idx : Nat) :
    findDirLoop [(("a").toList, ("src").toList)] (("a.b.c").toList) f (idx + 1) =
      none := by
  induction f generalizing idx with
  | zero => rfl
  | succ f ih =>
    show findDirLoop _ _ (f + 1) (idx + 1) = none
    rw [findDirLoop, prefixesAt_abc]
    exact ih (idx + 1)

/-- C5: the containing-directory lookup does not terminate.  For the
constants module `a.b.c.mod` (package part `a.b.c`) and package-directory
mapping `{'a': 'src'}` the loop consuming `prefixes('a.b.c')` never breaks
and never exhausts the generator, for any number of iterations — even
though the mapping does contain a dotted prefix (`'a'`) of the package
part, which the specification says should be found (with the current
directory as fallback).  `prefixes` recomputes `package.rpartition('.')`
instead of shortening the previous prefix, so it yields `'a.b'` forever. -/
theorem C5_prefix_lookup_diverges :
    (∀ fuel, findDirLoop [(("a").toList, ("src").toList)] (("a.b.c").toList)
        fuel 0 = none) ∧
    alookup [(("a").toList, ("src").toList)] (("a").toList) =
      some (("src").toList) := by
  refine ⟨fun fuel => ?_, rfl⟩
  cases fuel with
  | zero => rfl
  | succ f =>
    show findDirLoop _ _ (f + 1) 0 = none
    rw [findDirLoop]
    show findDirLoop _ _ f 1 = none
    exact findDirLoop_abc_stuck f 0

/-! ## C6 -/

/-- C6: `validate_constants_module` never raises: it tests
`all(map(str.isidentifier, value.split('.'))) is None`, and `all` returns
a bool, which is never `None` — so for an invalid dotted name such as
`1foo` (not a sequence of valid identifiers, as the third conjunct
records) no validation error is raised, contrary to the claim. -/
theorem C6_validate_constants_module_never_raises :
    (∀ value, validate_constants_module value = false) ∧
    validate_constants_module (("1foo").toList) = false ∧
    validDottedName (("1foo").toList) = false :=
  ⟨fun _ => rfl, rfl, by decide⟩

/-! ## C7 -/

/-- C7: a Text value with no `@` is returned unchanged by
`_substitute` (for any chain) and by `substitute`, against any table and
without touching the state. -/
theorem C7_no_delimiter_identity (denv : Nat → Table → Value) (fuel : Nat)
    (s : Str) (chain : List Str) (st : St) (h : '@' ∉ s) :
    engine denv (fuel + 1) (.sub (.text s) chain) st =
      (st, .ok (.val (.text s))) ∧
    engine denv (fuel + 2) (.structV (.text s)) st =
      (st, .ok (.val (.text s))) := by
  constructor
  · simp [engine, h]
  · simp [engine, h]

/-- Witness for C7 at a concrete input. -/
theorem C7_witness :
    '@' ∉ (("hello").toList) ∧
    engine (fun _ _ => Value.other 0) 1
        (.sub (.text (("hello").toList)) []) ⟨[], []⟩ =
      (⟨[], []⟩, .ok (.val (.text (("hello").toList)))) := by
  refine ⟨by decide, ?_⟩
  exact (C7_no_delimiter_identity (fun _ _ => Value.other 0) 0
    (("hello").toList) [] ⟨[], []⟩ (by decide)).1

/-! ## C10 -/

/-- C10: an argument list without the fixed marker token `configure`
makes the override parser raise (`args.index` raises `ValueError`)
instead of returning the list as pass-through with an empty table. -/
theorem C10_missing_marker_raises (args : List Str)
    (h : (("configure").toList) ∉ args) :
    parse_commandline_substitutions args = .error () := by
  unfold parse_commandline_substitutions
  rw [firstIndexOf_eq_none args _ h]

/-- Witness for C10 at a concrete input. -/
theorem C10_witness :
    (("configure").toList) ∉ [("setup.py").toList, ("build").toList] ∧
    parse_commandline_substitutions [("setup.py").toList, ("build").toList] =
      .error () :=
  ⟨by decide, C10_missing_marker_raises _ (by decide)⟩

/-! ## Lemmas about the scanner and segment processing -/

theorem prependStr_nil (out : St × Except SubErr EngineRet) :
    prependStr [] out = out := by
  obtain ⟨st, res⟩ := out
  cases res with
  | error e => rfl
  | ok r => cases r <;> rfl

theorem prependStr_error (p : Str) (st : St) (e : SubErr) :
    prependStr p (st, .error e) = (st, .error e) := rfl

theorem parseSegs_no_at (s : Str) (h : '@' ∉ s) : parseSegs s = s.map .lit := by
  unfold parseSegs
  induction s with
  | nil => rfl
  | cons c rest ih =>
    simp only [List.mem_cons, not_or] at h
    have hc : (c == '@') = false := by
      simp only [beq_eq_false_iff_ne, ne_eq]
      exact fun hq => h.1 hq.symm
    simp [parseSegsGo, hc, ih h.2]

theorem escRender_map_lit (s : Str) : escRender (s.map .lit) = s := by
  induction s with
  | nil => rfl
  | cons c rest ih => simp [escRender, ih]

theorem at_mem_of_named (s n : Str) (h : Seg.named n ∈ parseSegs s) :
    '@' ∈ s := by
  by_contra hn
  rw [parseSegs_no_at s hn] at h
  simp at h

/-- Running the segment interpreter over a prefix of literal and escape
segments consumes one fuel unit per segment, produces their replacement
text, and changes nothing else. -/
theorem segsNN (denv : Nat → Table → Value) (pre : List Seg)
    (h : ∀ g ∈ pre, g.isNamed = false) (rest : List Seg) (chain : List Str)
    (st : St) (fuel : Nat) :
    engine denv (fuel + pre.length) (.segs (pre ++ rest) chain) st =
      prependStr (escRender pre) (engine denv fuel (.segs rest chain) st) := by
  induction pre with
  | nil => simp [escRender, prependStr_nil]
  | cons g pre' ih =>
    have h' : ∀ g' ∈ pre', g'.isNamed = false := fun g' hg' => h g' (by simp [hg'])
    have hstep := ih h'
    show engine denv ((fuel + pre'.length) + 1) (.segs (g :: (pre' ++ rest)) chain) st = _
    cases g with
    | named nm => exact absurd (h (.named nm) (by simp)) (by simp [Seg.isNamed])
    | lit c =>
      simp only [engine, hstep]
      rcases hE : engine denv fuel (.segs rest chain) st with ⟨st0, res0⟩
      cases res0 with
      | error e => simp [prependStr]
      | ok r => cases r <;> simp [prependStr, escRender]
    | escaped =>
      simp only [engine, hstep]
      rcases hE : engine denv fuel (.segs rest chain) st with ⟨st0, res0⟩
      cases res0 with
      | error e => simp [prependStr]
      | ok r => cases r <;> simp [prependStr, escRender]

/-! ## C8 -/

/-- C8: a Text value whose delimiter uses are all `@@` escapes (no
named-reference match among its segments) resolves successfully against
any table — in particular the empty one — leaving the state untouched and
performing no lookup, and every escape match contributes exactly one
literal `@` to the result (`escRender`). -/
theorem C8_escape_resolution (denv : Nat → Table → Value) (s : Str)
    (chain : List Str) (st : St) (fuel : Nat)
    (h : ∀ g ∈ parseSegs s, g.isNamed = false) :
    engine denv ((parseSegs s).length + 2 + fuel) (.sub (.text s) chain) st =
      (st, .ok (.val (.text (escRender (parseSegs s))))) := by
  by_cases hat : '@' ∈ s
  · have hf : (parseSegs s).length + 2 + fuel =
        ((fuel + 1) + (parseSegs s).length) + 1 := by omega
    rw [hf]
    simp only [engine, if_pos hat]
    have hsplit : (.segs (parseSegs s) chain : EngineCall) =
        .segs (parseSegs s ++ []) chain := by simp
    rw [hsplit, segsNN denv (parseSegs s) h [] chain st (fuel + 1)]
    simp [engine, prependStr]
  · have hf : (parseSegs s).length + 2 + fuel =
        ((parseSegs s).length + 1 + fuel) + 1 := by omega
    rw [hf]
    simp only [engine, if_neg hat]
    rw [parseSegs_no_at s hat, escRender_map_lit]

/-- Witness for C8 at a concrete input. -/
theorem C8_witness :
    (∀ g ∈ parseSegs (("a@@b").toList), g.isNamed = false) ∧
    engine (fun _ _ => Value.other 0)
        ((parseSegs (("a@@b").toList)).length + 2 + 0)
        (.sub (.text (("a@@b").toList)) []) ⟨[], []⟩ =
      (⟨[], []⟩, .ok (.val (.text (("a@b").toList)))) := by
  refine ⟨by decide, ?_⟩
  exact C8_escape_resolution (fun _ _ => Value.other 0) (("a@@b").toList)
    [] ⟨[], []⟩ 0 (by decide)

/-! ## C3 -/

/-- C3 counterexample: the claim quantifies over every table in which
T[A] contains a named reference to B and T[B] contains a named reference
to A, and asserts the cycle error message contains both A and B.  Take
`T[A] = "@A@@B@"` and `T[B] = "@A@"`: both containment hypotheses hold
(first two conjuncts), but resolving T[A] hits the self-reference first
and fails with `Cycle detected: A->A`, whose message does not mention B
at all (last conjunct). -/
theorem C3_cycle_counterexample :
    (Seg.named (("B").toList) ∈ parseSegs (("@A@@B@").toList)) ∧
    (Seg.named (("A").toList) ∈ parseSegs (("@A@").toList)) ∧
    engine (fun _ _ => Value.other 0) 10
        (.sub (.text (("@A@@B@").toList)) [])
        ⟨[((("A").toList), Value.text (("@A@@B@").toList)),
          ((("B").toList), Value.text (("@A@").toList))], []⟩ =
      (⟨[((("A").toList), Value.text (("@A@@B@").toList)),
          ((("B").toList), Value.text (("@A@").toList))], []⟩,
        .error (.substitution (("Cycle detected: A->A").toList))) ∧
    ('B' ∉ (("Cycle detected: A->A").toList)) := by
  exact ⟨by decide, by decide, rfl, by decide⟩


/-- One-step propagation: a failing segment run makes `_substitute` on a
delimiter-bearing string fail the same way. -/
theorem sub_text_err (denv : Nat → Table → Value) (fuel : Nat) (s : Str)
    (chain : List Str) (st st' : St) (e : SubErr) (h1 : '@' ∈ s)
    (h2 : engine denv fuel (.segs (parseSegs s) chain) st = (st', .error e)) :
    engine denv (fuel + 1) (.sub (.text s) chain) st = (st', .error e) := by
  simp only [engine, if_pos h1, h2]

/-- `_replace` on a named reference already in the chain raises the
cycle-detection error with the extended chain. -/
theorem segs_named_cycle (denv : Nat → Table → Value) (fuel : Nat) (n : Str)
    (rest : List Seg) (chain : List Str) (st : St) (h : n ∈ chain) :
    engine denv (fuel + 1) (.segs (.named n :: rest) chain) st =
      (st, .error (.substitution (cycleMsg (chain ++ [n])))) := by
  simp only [engine]
  rw [if_pos h]

/-- One-step propagation: a failing `_expand` makes the segment run fail
the same way. -/
theorem segs_named_err (denv : Nat → Table → Value) (fuel : Nat) (n : Str)
    (rest : List Seg) (chain : List Str) (st st' : St) (e : SubErr)
    (h1 : n ∉ chain)
    (h2 : engine denv fuel (.expand n (chain ++ [n])) st = (st', .error e)) :
    engine denv (fuel + 1) (.segs (.named n :: rest) chain) st =
      (st', .error e) := by
  simp only [engine, h2]
  rw [if_neg h1]

/-- One-step propagation: a failing `_substitute` on the table's value
makes `_expand` fail the same way. -/
theorem expand_err (denv : Nat → Table → Value) (fuel : Nat) (n : Str)
    (chain : List Str) (st st' : St) (e : SubErr) (v : Value)
    (h1 : alookup st.table n = some v)
    (h2 : engine denv fuel (.sub v chain) st = (st', .error e)) :
    engine denv (fuel + 1) (.expand n chain) st = (st', .error e) := by
  simp only [engine, h1, h2]

/-- C3 (amended): if the first named-reference match of T[A] refers to B,
the first named-reference match of T[B] refers back to A, and A ≠ B, then
resolving T[A] fails with `Cycle detected: B->A->B` — the chain holds both
names in traversal order — without changing the state; and if the first
named-reference match of T[A] is A itself, resolution of T[A] fails with
`Cycle detected: A->A`. -/
theorem C3_cycle_amended :
    (∀ (denv : Nat → Table → Value) (st : St) (A B sA sB : Str)
      (preA preB restA restB : List Seg) (fuel : Nat),
      A ≠ B →
      alookup st.table A = some (.text sA) →
      alookup st.table B = some (.text sB) →
      parseSegs sA = preA ++ .named B :: restA →
      (∀ g ∈ preA, g.isNamed = false) →
      parseSegs sB = preB ++ .named A :: restB →
      (∀ g ∈ preB, g.isNamed = false) →
      2 * preA.length + preB.length + 8 ≤ fuel →
      engine denv fuel (.sub (.text sA) []) st =
        (st, .error (.substitution (cycleMsg [B, A, B])))) ∧
    (∀ (denv : Nat → Table → Value) (st : St) (A sA : Str)
      (preA restA : List Seg) (fuel : Nat),
      alookup st.table A = some (.text sA) →
      parseSegs sA = preA ++ .named A :: restA →
      (∀ g ∈ preA, g.isNamed = false) →
      2 * preA.length + 5 ≤ fuel →
      engine denv fuel (.sub (.text sA) []) st =
        (st, .error (.substitution (cycleMsg [A, A])))) := by
  constructor
  · intro denv st A B sA sB preA preB restA restB fuel hAB hA hB hsegA hpreA
      hsegB hpreB hfuel
    have hatA : '@' ∈ sA := at_mem_of_named sA B (by rw [hsegA]; simp)
    have hatB : '@' ∈ sB := at_mem_of_named sB A (by rw [hsegB]; simp)
    obtain ⟨g, rfl⟩ : ∃ g, fuel = 2 * preA.length + preB.length + 8 + g :=
      ⟨fuel - (2 * preA.length + preB.length + 8), by omega⟩
    have hS9 : engine denv (g + 1) (.segs (.named B :: restA) [B, A]) st =
        (st, .error (.substitution (cycleMsg [B, A, B]))) :=
      segs_named_cycle denv g B restA [B, A] st (by simp)
    have hS9' : engine denv ((g + 1) + preA.length)
        (.segs (preA ++ .named B :: restA) [B, A]) st =
        (st, .error (.substitution (cycleMsg [B, A, B]))) := by
      rw [segsNN denv preA hpreA _ _ st (g + 1), hS9, prependStr_error]
    have hS8 : engine denv (((g + 1) + preA.length) + 1)
        (.sub (.text sA) [B, A]) st =
        (st, .error (.substitution (cycleMsg [B, A, B]))) :=
      sub_text_err denv _ sA [B, A] st st _ hatA (by rw [hsegA]; exact hS9')
    have hS7 : engine denv ((((g + 1) + preA.length) + 1) + 1)
        (.expand A [B, A]) st =
        (st, .error (.substitution (cycleMsg [B, A, B]))) :=
      expand_err denv _ A [B, A] st st _ _ hA hS8
    have hS6 : engine denv (((((g + 1) + preA.length) + 1) + 1) + 1)
        (.segs (.named A :: restB) [B]) st =
        (st, .error (.substitution (cycleMsg [B, A, B]))) :=
      segs_named_err denv _ A restB [B] st st _ (by simp [hAB]) hS7
    have hS5 : engine denv
        ((((((g + 1) + preA.length) + 1) + 1) + 1) + preB.length)
        (.segs (preB ++ .named A :: restB) [B]) st =
        (st, .error (.substitution (cycleMsg [B, A, B]))) := by
      rw [segsNN denv preB hpreB _ _ st _, hS6, prependStr_error]
    have hS4 : engine denv
        (((((((g + 1) + preA.length) + 1) + 1) + 1) + preB.length) + 1)
        (.sub (.text sB) [B]) st =
        (st, .error (.substitution (cycleMsg [B, A, B]))) :=
      sub_text_err denv _ sB [B] st st _ hatB (by rw [hsegB]; exact hS5)
    have hS3 : engine denv
        ((((((((g + 1) + preA.length) + 1) + 1) + 1) + preB.length) + 1) + 1)
        (.expand B [B]) st =
        (st, .error (.substitution (cycleMsg [B, A, B]))) :=
      expand_err denv _ B [B] st st _ _ hB hS4
    have hS2 : engine denv
        (((((((((g + 1) + preA.length) + 1) + 1) + 1) + preB.length) + 1) + 1) + 1)
        (.segs (.named B :: restA) []) st =
        (st, .error (.substitution (cycleMsg [B, A, B]))) :=
      segs_named_err denv _ B restA [] st st _ (by simp) hS3
    have hS1 : engine denv
        ((((((((((g + 1) + preA.length) + 1) + 1) + 1) + preB.length) + 1) + 1) + 1) + preA.length)
        (.segs (preA ++ .named B :: restA) []) st =
        (st, .error (.substitution (cycleMsg [B, A, B]))) := by
      rw [segsNN denv preA hpreA _ _ st _, hS2, prependStr_error]
    have harith : 2 * preA.length + preB.length + 8 + g =
        (((((((((((g + 1) + preA.length) + 1) + 1) + 1) + preB.length) + 1) + 1) + 1) + preA.length) + 1) := by
      omega
    rw [harith]
    exact sub_text_err denv _ sA [] st st _ hatA (by rw [hsegA]; exact hS1)
  · intro denv st A sA preA restA fuel hA hsegA hpreA hfuel
    have hatA : '@' ∈ sA := at_mem_of_named sA A (by rw [hsegA]; simp)
    obtain ⟨g, rfl⟩ : ∃ g, fuel = 2 * preA.length + 5 + g :=
      ⟨fuel - (2 * preA.length + 5), by omega⟩
    have hT4 : engine denv (g + 1) (.segs (.named A :: restA) [A]) st =
        (st, .error (.substitution (cycleMsg [A, A]))) :=
      segs_named_cycle denv g A restA [A] st (by simp)
    have hT3 : engine denv ((g + 1) + preA.length)
        (.segs (preA ++ .named A :: restA) [A]) st =
        (st, .error (.substitution (cycleMsg [A, A]))) := by
      rw [segsNN denv preA hpreA _ _ st _, hT4, prependStr_error]
    have hT2 : engine denv (((g + 1) + preA.length) + 1)
        (.sub (.text sA) [A]) st =
        (st, .error (.substitution (cycleMsg [A, A]))) :=
      sub_text_err denv _ sA [A] st st _ hatA (by rw [hsegA]; exact hT3)
    have hT1 : engine denv ((((g + 1) + preA.length) + 1) + 1)
        (.expand A [A]) st =
        (st, .error (.substitution (cycleMsg [A, A]))) :=
      expand_err denv _ A [A] st st _ _ hA hT2
    have hT0 : engine denv (((((g + 1) + preA.length) + 1) + 1) + 1)
        (.segs (.named A :: restA) []) st =
        (st, .error (.substitution (cycleMsg [A, A]))) :=
      segs_named_err denv _ A restA [] st st _ (by simp) hT1
    have hT0' : engine denv
        ((((((g + 1) + preA.length) + 1) + 1) + 1) + preA.length)
        (.segs (preA ++ .named A :: restA) []) st =
        (st, .error (.substitution (cycleMsg [A, A]))) := by
      rw [segsNN denv preA hpreA _ _ st _, hT0, prependStr_error]
    have harith : 2 * preA.length + 5 + g =
        (((((((g + 1) + preA.length) + 1) + 1) + 1) + preA.length) + 1) := by
      omega
    rw [harith]
    exact sub_text_err denv _ sA [] st st _ hatA (by rw [hsegA]; exact hT0')

/-- Witness for C3 (amended) at concrete inputs: the table
`{A: "@B@", B: "@A@"}` gives `Cycle detected: B->A->B`, and the table
`{A: "@A@"}` gives `Cycle detected: A->A`. -/
theorem C3_cycle_witness :
    engine (fun _ _ => Value.other 0) 8
        (.sub (.text (("@B@").toList)) [])
        ⟨[((("A").toList), Value.text (("@B@").toList)),
          ((("B").toList), Value.text (("@A@").toList))], []⟩ =
      (⟨[((("A").toList), Value.text (("@B@").toList)),
          ((("B").toList), Value.text (("@A@").toList))], []⟩,
        .error (.substitution
          (cycleMsg [("B").toList, ("A").toList, ("B").toList]))) ∧
    engine (fun _ _ => Value.other 0) 5
        (.sub (.text (("@A@").toList)) [])
        ⟨[((("A").toList), Value.text (("@A@").toList))], []⟩ =
      (⟨[((("A").toList), Value.text (("@A@").toList))], []⟩,
        .error (.substitution (cycleMsg [("A").toList, ("A").toList]))) := by
  constructor
  · exact C3_cycle_amended.1 (fun _ _ => Value.other 0) _
      (("A").toList) (("B").toList) (("@B@").toList) (("@A@").toList)
      [] [] [] [] 8 (by decide) rfl rfl (by decide) (by decide)
      (by decide) (by decide) (by decide)
  · exact C3_cycle_amended.2 (fun _ _ => Value.other 0) _
      (("A").toList) (("@A@").toList) [] [] 5 rfl (by decide) (by decide)
      (by decide)

/-! ## C9 -/

/-- Element-wise description of a successful `substitute` run over the
elements of a sequence: one result per element, in order, each produced
by a `substitute` run on the corresponding input element. -/
theorem structL_spec (denv : Nat → Table → Value) :
    ∀ (vs : List Value) (fuel : Nat) (st st' : St) (rs : List Value),
    engine denv fuel (.structL vs) st = (st', .ok (.listR rs)) →
    rs.length = vs.length ∧
      ∀ i (hi : i < vs.length) (hi' : i < rs.length), ∃ f' s1 s2,
        engine denv f' (.structV (vs.get ⟨i, hi⟩)) s1 =
          (s2, .ok (.val (rs.get ⟨i, hi'⟩))) := by
  intro vs
  induction vs with
  | nil =>
    intro fuel st st' rs h
    cases fuel with
    | zero => simp [engine] at h
    | succ f =>
      simp only [engine, Prod.mk.injEq] at h
      obtain ⟨rfl, h2⟩ := h
      obtain rfl : ([] : List Value) = rs := by
        injection h2 with h3
        injection h3
      exact ⟨rfl, fun i hi => absurd hi (by simp)⟩
  | cons x xs ih =>
    intro fuel st st' rs h
    cases fuel with
    | zero => simp [engine] at h
    | succ f =>
      simp only [engine] at h
      split at h
      · rename_i st1 r hx
        split at h
        · rename_i st2 rs' hxs
          simp only [Prod.mk.injEq] at h
          obtain ⟨rfl, h2⟩ := h
          obtain rfl : rs = r :: rs' := by
            injection h2 with h3
            injection h3 with h4
            exact h4.symm
          obtain ⟨hlen, helem⟩ := ih f st1 st2 rs' hxs
          refine ⟨by simp [hlen], ?_⟩
          intro i hi hi'
          cases i with
          | zero => exact ⟨f, st, st1, hx⟩
          | succ j =>
            have hj : j < xs.length := by simpa using hi
            have hj' : j < rs'.length := by simpa using hi'
            obtain ⟨f', s1, s2, he⟩ := helem j hj hj'
            exact ⟨f', s1, s2, he⟩
        · simp at h
        · simp at h
      · simp at h
      · simp at h

/-- C9: a successful `substitute` on a sequence returns a sequence of the
same concrete container kind (tag) and the same length, whose i-th element
is the result of a `substitute` run on the i-th input element; and a value
that is neither Text, DeferredComputation, Mapping nor Sequence is
returned unchanged without touching the state. -/
theorem C9_sequence_traversal :
    (∀ (denv : Nat → Table → Value) (fuel tag : Nat) (items : List Value)
      (st st' : St) (r : Value),
      engine denv fuel (.structV (.seq tag items)) st = (st', .ok (.val r)) →
      ∃ rs, r = .seq tag rs ∧ rs.length = items.length ∧
        ∀ i (hi : i < items.length) (hi' : i < rs.length), ∃ f' s1 s2,
          engine denv f' (.structV (items.get ⟨i, hi⟩)) s1 =
            (s2, .ok (.val (rs.get ⟨i, hi'⟩)))) ∧
    (∀ (denv : Nat → Table → Value) (fuel tag : Nat) (st : St),
      engine denv (fuel + 1) (.structV (.other tag)) st =
        (st, .ok (.val (.other tag)))) := by
  constructor
  · intro denv fuel tag items st st' r h
    cases fuel with
    | zero => simp [engine] at h
    | succ f =>
      simp only [engine] at h
      split at h
      · rename_i st1 rs hl
        simp only [Prod.mk.injEq] at h
        obtain ⟨rfl, h2⟩ := h
        obtain rfl : r = .seq tag rs := by
          injection h2 with h3
          injection h3 with h4
          exact h4.symm
        obtain ⟨hlen, helem⟩ := structL_spec denv items f st st1 rs hl
        exact ⟨rs, rfl, hlen, helem⟩
      · simp at h
      · simp at h
  · intro denv fuel tag st
    simp [engine]

/-- Witness for C9 at a concrete input. -/
theorem C9_witness :
    engine (fun _ _ => Value.other 0) 5
        (.structV (.seq 3 [.text (("x").toList)])) ⟨[], []⟩ =
      (⟨[], []⟩, .ok (.val (.seq 3 [.text (("x").toList)]))) ∧
    (∃ rs, (Value.seq 3 [.text (("x").toList)]) = .seq 3 rs ∧
      rs.length = [Value.text (("x").toList)].length ∧
      ∀ i (hi : i < [Value.text (("x").toList)].length)
        (hi' : i < rs.length), ∃ f' s1 s2,
        engine (fun _ _ => Value.other 0) f'
            (.structV ([Value.text (("x").toList)].get ⟨i, hi⟩)) s1 =
          (s2, .ok (.val (rs.get ⟨i, hi'⟩)))) := by
  refine ⟨rfl, ?_⟩
  exact C9_sequence_traversal.1 (fun _ _ => Value.other 0) 5 3
    [_] ⟨[], []⟩ ⟨[], []⟩ _ rfl

/-! ## C2: lemmas about characters, sorting and lookup -/

theorem alookup_mem_keys {α : Type} (t : List (Str × α)) (k : Str) (v : α)
    (h : alookup t k = some v) : k ∈ t.map Prod.fst := by
  induction t with
  | nil => simp [alookup] at h
  | cons e rest ih =>
    obtain ⟨k1, v1⟩ := e
    simp only [alookup] at h
    by_cases h1 : k1 = k
    · subst h1
      simp only [List.map_cons]
      exact List.mem_cons_self _ _
    · rw [if_neg h1] at h
      simp only [List.map_cons]
      exact List.mem_cons_of_mem k1 (ih h)

theorem occV_lookup_le (i : Nat) (t : Table) (k : Str) (v : Value)
    (h : alookup t k = some v) : occV i v ≤ occT i t := by
  induction t with
  | nil => simp [alookup] at h
  | cons e rest ih =>
    obtain ⟨k1, v1⟩ := e
    simp only [alookup] at h
    by_cases h1 : k1 = k
    · rw [if_pos h1] at h
      injection h with h2
      subst h2
      simp [occT]
    · rw [if_neg h1] at h
      have := ih h
      simp only [occT]
      omega

theorem occT_dictInsert_exact (i : Nat) (t : Table) (k : Str) (v r : Value)
    (h : alookup t k = some v) :
    occT i (dictInsert t k r) + occV i v = occT i t + occV i r := by
  induction t with
  | nil => simp [alookup] at h
  | cons e rest ih =>
    obtain ⟨k1, v1⟩ := e
    simp only [alookup] at h
    by_cases h1 : k1 = k
    · rw [if_pos h1] at h
      injection h with h2
      subst h2
      simp only [dictInsert, if_pos h1, occT]
      omega
    · rw [if_neg h1] at h
      have := ih h
      simp only [dictInsert, if_neg h1, occT]
      omega

theorem occT_dictInsert_le (i : Nat) (t : Table) (k : Str) (r : Value) :
    occT i (dictInsert t k r) ≤ occT i t + occV i r := by
  induction t with
  | nil => simp [dictInsert, occT]
  | cons e rest ih =>
    obtain ⟨k1, v1⟩ := e
    by_cases h1 : k1 = k
    · simp only [dictInsert, if_pos h1, occT]
      omega
    · simp only [dictInsert, if_neg h1, occT]
      omega

theorem RootOnly_dictInsert (i : Nat) (t : Table) (k : Str) (r : Value)
    (hro : RootOnly i t) (hr : occV i r = 0) :
    RootOnly i (dictInsert t k r) := by
  intro key v hv hocc
  rw [alookup_dictInsert] at hv
  by_cases hk : key = k
  · rw [if_pos hk] at hv
    injection hv with hv
    subst hv
    exact absurd hr hocc
  · rw [if_neg hk] at hv
    exact hro key v hv hocc

theorem count_append_singleton (i j : Nat) (l : List Nat) :
    (l ++ [j]).count i = l.count i + (if j = i then 1 else 0) := by
  rw [List.count_append]
  by_cases hj : j = i <;> simp [hj, List.count_singleton, List.count_cons]

/-- Accounting invariant of the engine: each call preserves the table's
keys and the root-only placement of a deferred id, never touches chain
entries, and increases the number of invocations of the id plus its
remaining table occurrences by at most the occurrences in the call's
payload; results never hold more occurrences than the payload did. -/
theorem engineAcct (i : Nat) (denv : Nat → Table → Value)
    (Hdenv : ∀ j t, occV i (denv j t) = 0) :
    ∀ fuel call st,
    (st.table.map Prod.fst).Nodup → RootOnly i st.table → callWF call →
    AcctOut i call st (engine denv fuel call st) := by
  intro fuel
  induction fuel with
  | zero =>
    intro call st hnod hro hwf
    show AcctOut i call st (st, .error .fuel)
    exact ⟨rfl, hro, fun n _ => rfl, Nat.le_add_right _ _,
      fun ret hret => nomatch hret⟩
  | succ fuel IH =>
    intro call st hnod hro hwf
    cases call with
    | sub v chain =>
      cases v with
      | deferred j =>
        show AcctOut i (.sub (.deferred j) chain) st
          (⟨st.table, st.log ++ [j]⟩, .ok (.val (denv j st.table)))
        have hz : occV i (denv j st.table) = 0 := Hdenv j st.table
        refine ⟨rfl, hro, fun n _ => rfl, ?_, ?_⟩
        · simp only [phi, occC, occV, count_append_singleton]
          by_cases hj : j = i <;> simp [hj] <;> omega
        · intro ret hret
          injection hret with h1
          subst h1
          constructor
          · simp only [phi, occC, occR, occV, count_append_singleton, hz]
            by_cases hj : j = i <;> simp [hj] <;> omega
          · simp only [occR, occC, occV, hz]
            by_cases hj : j = i <;> simp [hj] <;> omega
      | text s =>
        simp only [engine]
        split_ifs with hat
        · rcases hseg : engine denv fuel (.segs (parseSegs s) chain) st
            with ⟨st1, res1⟩
          have IH1 := IH (.segs (parseSegs s) chain) st hnod hro trivial
          rw [hseg] at IH1
          obtain ⟨K1, RO1, F1, P1, OK1⟩ := IH1
          cases res1 with
          | error e =>
            exact ⟨K1, RO1, fun n hn => F1 n hn,
              by simpa [occC, occV] using P1, fun ret hret => nomatch hret⟩
          | ok r1 =>
            cases r1 with
            | strR t =>
              refine ⟨K1, RO1, fun n hn => F1 n hn,
                by simpa [occC, occV] using P1, ?_⟩
              intro ret hret
              injection hret with h1
              subst h1
              have hk := OK1 (.strR t) rfl
              constructor
              · simpa [occR, occC, occV] using hk.1
              · simp [occR, occC, occV]
            | val v2 =>
              exact ⟨K1, RO1, fun n hn => F1 n hn,
                by simpa [occC, occV] using P1, fun ret hret => nomatch hret⟩
            | listR l2 =>
              exact ⟨K1, RO1, fun n hn => F1 n hn,
                by simpa [occC, occV] using P1, fun ret hret => nomatch hret⟩
            | pairsR p2 =>
              exact ⟨K1, RO1, fun n hn => F1 n hn,
                by simpa [occC, occV] using P1, fun ret hret => nomatch hret⟩
        · refine ⟨rfl, hro, fun n _ => rfl, Nat.le_add_right _ _, ?_⟩
          intro ret hret
          injection hret with h1
          subst h1
          exact ⟨by simp [occR, occC, occV], by simp [occR, occC, occV]⟩
      | mapping tag es =>
        simp only [engine]
        split_ifs with hc
        · exact ⟨rfl, hro, fun n _ => rfl, Nat.le_add_right _ _,
            fun ret hret => nomatch hret⟩
        · refine ⟨rfl, hro, fun n _ => rfl, Nat.le_add_right _ _, ?_⟩
          intro ret hret
          injection hret with h1
          subst h1
          exact ⟨by simp [occR, occC, occV], by simp [occR, occC, occV]⟩
      | seq tag xs =>
        simp only [engine]
        split_ifs with hc
        · exact ⟨rfl, hro, fun n _ => rfl, Nat.le_add_right _ _,
            fun ret hret => nomatch hret⟩
        · refine ⟨rfl, hro, fun n _ => rfl, Nat.le_add_right _ _, ?_⟩
          intro ret hret
          injection hret with h1
          subst h1
          exact ⟨by simp [occR, occC, occV], by simp [occR, occC, occV]⟩
      | other tag =>
        show AcctOut i (.sub (.other tag) chain) st (st, .error .typeMismatch)
        exact ⟨rfl, hro, fun n _ => rfl, Nat.le_add_right _ _,
          fun ret hret => nomatch hret⟩
    | segs ss chain =>
      cases ss with
      | nil =>
        show AcctOut i (.segs [] chain) st (st, .ok (.strR []))
        refine ⟨rfl, hro, fun n _ => rfl, Nat.le_add_right _ _, ?_⟩
        intro ret hret
        injection hret with h1
        subst h1
        exact ⟨by simp [occR, occC], by simp [occR, occC]⟩
      | cons seg rest =>
        cases seg with
        | lit c =>
          simp only [engine]
          rcases hrest : engine denv fuel (.segs rest chain) st with ⟨st1, res1⟩
          have IH1 := IH (.segs rest chain) st hnod hro trivial
          rw [hrest] at IH1
          obtain ⟨K1, RO1, F1, P1, OK1⟩ := IH1
          cases res1 with
          | error e =>
            exact ⟨K1, RO1, F1, P1, fun ret hret => nomatch hret⟩
          | ok r1 =>
            cases r1 with
            | strR t =>
              refine ⟨K1, RO1, F1, P1, ?_⟩
              intro ret hret
              injection hret with h1
              subst h1
              have hk := OK1 (.strR t) rfl
              exact ⟨by simpa [occR, occC] using hk.1, by simp [occR, occC]⟩
            | val v2 =>
              refine ⟨K1, RO1, F1, P1, ?_⟩
              intro ret hret
              injection hret with h1
              subst h1
              exact OK1 (.val v2) rfl
            | listR l2 =>
              refine ⟨K1, RO1, F1, P1, ?_⟩
              intro ret hret
              injection hret with h1
              subst h1
              exact OK1 (.listR l2) rfl
            | pairsR p2 =>
              refine ⟨K1, RO1, F1, P1, ?_⟩
              intro ret hret
              injection hret with h1
              subst h1
              exact OK1 (.pairsR p2) rfl
        | escaped =>
          simp only [engine]
          rcases hrest : engine denv fuel (.segs rest chain) st with ⟨st1, res1⟩
          have IH1 := IH (.segs rest chain) st hnod hro trivial
          rw [hrest] at IH1
          obtain ⟨K1, RO1, F1, P1, OK1⟩ := IH1
          cases res1 with
          | error e =>
            exact ⟨K1, RO1, F1, P1, fun ret hret => nomatch hret⟩
          | ok r1 =>
            cases r1 with
            | strR t =>
              refine ⟨K1, RO1, F1, P1, ?_⟩
              intro ret hret
              injection hret with h1
              subst h1
              have hk := OK1 (.strR t) rfl
              exact ⟨by simpa [occR, occC] using hk.1, by simp [occR, occC]⟩
            | val v2 =>
              refine ⟨K1, RO1, F1, P1, ?_⟩
              intro ret hret
              injection hret with h1
              subst h1
              exact OK1 (.val v2) rfl
            | listR l2 =>
              refine ⟨K1, RO1, F1, P1, ?_⟩
              intro ret hret
              injection hret with h1
              subst h1
              exact OK1 (.listR l2) rfl
            | pairsR p2 =>
              refine ⟨K1, RO1, F1, P1, ?_⟩
              intro ret hret
              injection hret with h1
              subst h1
              exact OK1 (.pairsR p2) rfl
        | named n =>
          simp only [engine]
          split_ifs with hchain
          · exact ⟨rfl, hro, fun n' _ => rfl, Nat.le_add_right _ _,
              fun ret hret => nomatch hret⟩
          · rcases hexp : engine denv fuel (.expand n (chain ++ [n])) st
              with ⟨st1, res1⟩
            have IH1 := IH (.expand n (chain ++ [n])) st hnod hro (by simp [callWF])
            rw [hexp] at IH1
            obtain ⟨K1, RO1, F1, P1, OK1⟩ := IH1
            have Fr1 : ∀ m ∈ chain, alookup st1.table m = alookup st.table m := by
              intro m hm
              refine F1 m ⟨by simp [hm], ?_⟩
              intro he
              subst he
              exact hchain hm
            cases res1 with
            | error e =>
              exact ⟨K1, RO1, fun m hm => Fr1 m hm,
                by simpa [occC] using P1, fun ret hret => nomatch hret⟩
            | ok r1 =>
              cases r1 with
              | val rv =>
                cases rv with
                | text t =>
                  show AcctOut i (.segs (.named n :: rest) chain) st
                    (match engine denv fuel (.segs rest chain) st1 with
                      | (st'', .ok (.strR t2)) => (st'', .ok (.strR (t ++ t2)))
                      | other => other)
                  rcases hrest : engine denv fuel (.segs rest chain) st1
                    with ⟨st2, res2⟩
                  have hnod1 : (st1.table.map Prod.fst).Nodup := K1 ▸ hnod
                  have IH2 := IH (.segs rest chain) st1 hnod1 RO1 trivial
                  rw [hrest] at IH2
                  obtain ⟨K2, RO2, F2, P2, OK2⟩ := IH2
                  have p1 : phi i st1 ≤ phi i st := by
                    simpa [occC, occR, occV] using (OK1 (.val (.text t)) rfl).1
                  have p2 : phi i st2 ≤ phi i st1 := by
                    simpa [occC] using P2
                  cases res2 with
                  | error e =>
                    exact ⟨K2.trans K1, RO2,
                      fun m hm => (F2 m hm).trans (Fr1 m hm),
                      by simp only [occC]; omega,
                      fun ret hret => nomatch hret⟩
                  | ok r2 =>
                    cases r2 with
                    | strR t2 =>
                      refine ⟨K2.trans K1, RO2,
                        fun m hm => (F2 m hm).trans (Fr1 m hm),
                        by simp only [occC]; omega, ?_⟩
                      intro ret hret
                      injection hret with h1
                      subst h1
                      constructor
                      · simp only [occR, occC]
                        omega
                      · simp [occR, occC]
                    | val v2 =>
                      refine ⟨K2.trans K1, RO2,
                        fun m hm => (F2 m hm).trans (Fr1 m hm),
                        by simp only [occC]; omega, ?_⟩
                      intro ret hret
                      injection hret with h1
                      subst h1
                      have hOK2 := OK2 (.val v2) rfl
                      simp only [occR, occC] at hOK2 ⊢
                      omega
                    | listR l2 =>
                      refine ⟨K2.trans K1, RO2,
                        fun m hm => (F2 m hm).trans (Fr1 m hm),
                        by simp only [occC]; omega, ?_⟩
                      intro ret hret
                      injection hret with h1
                      subst h1
                      have hOK2 := OK2 (.listR l2) rfl
                      simp only [occR, occC] at hOK2 ⊢
                      omega
                    | pairsR p2 =>
                      refine ⟨K2.trans K1, RO2,
                        fun m hm => (F2 m hm).trans (Fr1 m hm),
                        by simp only [occC]; omega, ?_⟩
                      intro ret hret
                      injection hret with h1
                      subst h1
                      have hOK2 := OK2 (.pairsR p2) rfl
                      simp only [occR, occC] at hOK2 ⊢
                      omega
                | deferred j2 =>
                  exact ⟨K1, RO1, fun m hm => Fr1 m hm,
                    by simpa [occC] using P1, fun ret hret => nomatch hret⟩
                | mapping tag2 es2 =>
                  exact ⟨K1, RO1, fun m hm => Fr1 m hm,
                    by simpa [occC] using P1, fun ret hret => nomatch hret⟩
                | seq tag2 xs2 =>
                  exact ⟨K1, RO1, fun m hm => Fr1 m hm,
                    by simpa [occC] using P1, fun ret hret => nomatch hret⟩
                | other tag2 =>
                  exact ⟨K1, RO1, fun m hm => Fr1 m hm,
                    by simpa [occC] using P1, fun ret hret => nomatch hret⟩
              | strR t1 =>
                exact ⟨K1, RO1, fun m hm => Fr1 m hm,
                  by simpa [occC] using P1, fun ret hret => nomatch hret⟩
              | listR l1 =>
                exact ⟨K1, RO1, fun m hm => Fr1 m hm,
                  by simpa [occC] using P1, fun ret hret => nomatch hret⟩
              | pairsR p1 =>
                exact ⟨K1, RO1, fun m hm => Fr1 m hm,
                  by simpa [occC] using P1, fun ret hret => nomatch hret⟩
    | expand n chain =>
      simp only [engine]
      rcases hlook : alookup st.table n with _ | v
      · exact ⟨rfl, hro, fun m _ => rfl, Nat.le_add_right _ _,
          fun ret hret => nomatch hret⟩
      · show AcctOut i (.expand n chain) st
          (match engine denv fuel (.sub v chain) st with
            | (st1, .ok (.val r)) =>
              (⟨dictInsert st1.table n r, st1.log⟩, .ok (.val r))
            | (st1, .ok _) => (st1, .error .typeMismatch)
            | (st1, .error e) => (st1, .error e))
        rcases hsub : engine denv fuel (.sub v chain) st with ⟨st1, res1⟩
        have IH1 := IH (.sub v chain) st hnod hro trivial
        rw [hsub] at IH1
        obtain ⟨K1, RO1, F1, P1, OK1⟩ := IH1
        cases res1 with
        | error e =>
          refine ⟨K1, RO1, fun m hm => F1 m hm.1, ?_,
            fun ret hret => nomatch hret⟩
          by_cases hocc : occV i v = 0
          · simp only [occC, occV] at P1 ⊢
            omega
          · have hv := hro n v hlook hocc
            subst hv
            cases fuel with
            | zero =>
              have hst : st = st1 := by
                have h0 : ((st, .error .fuel) : St × Except SubErr EngineRet) =
                    (st1, .error e) := hsub
                injection h0 with h1 h2
              simp only [occC]
              rw [← hst]
              omega
            | succ f2 =>
              exact absurd hsub (by simp [engine])
        | ok r1 =>
          cases r1 with
          | val r =>
            have hlook1 : alookup st1.table n = some v := by
              rw [F1 n hwf]
              exact hlook
            have hocc_r : occV i r = 0 := by
              by_cases hocc : occV i v = 0
              · have hk := (OK1 (.val r) rfl).2
                simp only [occR, occC] at hk
                omega
              · have hv := hro n v hlook hocc
                subst hv
                cases fuel with
                | zero => exact absurd hsub (by simp [engine])
                | succ f2 =>
                  simp only [engine] at hsub
                  have hr : r = denv i st.table := by
                    injection hsub with h1 h2
                    injection h2 with h3
                    injection h3 with h4
                    exact h4.symm
                  rw [hr]
                  exact Hdenv i st.table
            have hmem : n ∈ st1.table.map Prod.fst :=
              alookup_mem_keys _ _ _ hlook1
            have hK : ((dictInsert st1.table n r).map Prod.fst) =
                st1.table.map Prod.fst := keys_dictInsert _ _ _ hmem
            have hocceq := occT_dictInsert_exact i st1.table n v r hlook1
            have hP := (OK1 (.val r) rfl).1
            refine ⟨hK.trans K1, RootOnly_dictInsert i st1.table n r RO1 hocc_r,
              ?_, ?_, ?_⟩
            · intro m hm
              rw [alookup_dictInsert, if_neg hm.2]
              exact F1 m hm.1
            · simp only [phi, occC, occR] at hP hocceq ⊢
              omega
            · intro ret hret
              injection hret with h1
              subst h1
              simp only [phi, occC, occR] at hP hocceq ⊢
              omega
          | strR t1 =>
            refine ⟨K1, RO1, fun m hm => F1 m hm.1, ?_,
              fun ret hret => nomatch hret⟩
            by_cases hocc : occV i v = 0
            · simp only [occC, occV] at P1 ⊢
              omega
            · have hv := hro n v hlook hocc
              subst hv
              cases fuel with
              | zero => exact absurd hsub (by simp [engine])
              | succ f2 => exact absurd hsub (by simp [engine])
          | listR l1 =>
            refine ⟨K1, RO1, fun m hm => F1 m hm.1, ?_,
              fun ret hret => nomatch hret⟩
            by_cases hocc : occV i v = 0
            · simp only [occC, occV] at P1 ⊢
              omega
            · have hv := hro n v hlook hocc
              subst hv
              cases fuel with
              | zero => exact absurd hsub (by simp [engine])
              | succ f2 => exact absurd hsub (by simp [engine])
          | pairsR p1 =>
            refine ⟨K1, RO1, fun m hm => F1 m hm.1, ?_,
              fun ret hret => nomatch hret⟩
            by_cases hocc : occV i v = 0
            · simp only [occC, occV] at P1 ⊢
              omega
            · have hv := hro n v hlook hocc
              subst hv
              cases fuel with
              | zero => exact absurd hsub (by simp [engine])
              | succ f2 => exact absurd hsub (by simp [engine])
    | structV v =>
      cases v with
      | text s =>
        simp only [engine]
        have IH1 := IH (.sub (.text s) []) st hnod hro trivial
        obtain ⟨K1, RO1, F1, P1, OK1⟩ := IH1
        refine ⟨K1, RO1, fun m hm => hm.elim, by simpa [occC] using P1, ?_⟩
        intro ret hret
        have hk := OK1 ret hret
        exact ⟨by simpa [occC] using hk.1, by simpa [occC] using hk.2⟩
      | deferred j =>
        simp only [engine]
        have IH1 := IH (.sub (.deferred j) []) st hnod hro trivial
        obtain ⟨K1, RO1, F1, P1, OK1⟩ := IH1
        refine ⟨K1, RO1, fun m hm => hm.elim, by simpa [occC] using P1, ?_⟩
        intro ret hret
        have hk := OK1 ret hret
        exact ⟨by simpa [occC] using hk.1, by simpa [occC] using hk.2⟩
      | mapping tag es =>
        simp only [engine]
        rcases hp : engine denv fuel (.structP es) st with ⟨st1, res1⟩
        have IH1 := IH (.structP es) st hnod hro trivial
        rw [hp] at IH1
        obtain ⟨K1, RO1, F1, P1, OK1⟩ := IH1
        cases res1 with
        | error e =>
          exact ⟨K1, RO1, fun m hm => hm.elim,
            by simpa [occC, occV] using P1, fun ret hret => nomatch hret⟩
        | ok r1 =>
          cases r1 with
          | pairsR rs =>
            refine ⟨K1, RO1, fun m hm => hm.elim,
              by simpa [occC, occV] using P1, ?_⟩
            intro ret hret
            injection hret with h1
            subst h1
            have hk := OK1 (.pairsR rs) rfl
            constructor
            · simpa [occR, occC, occV] using hk.1
            · simpa [occR, occC, occV] using hk.2
          | val v2 =>
            exact ⟨K1, RO1, fun m hm => hm.elim,
              by simpa [occC, occV] using P1, fun ret hret => nomatch hret⟩
          | strR t2 =>
            exact ⟨K1, RO1, fun m hm => hm.elim,
              by simpa [occC, occV] using P1, fun ret hret => nomatch hret⟩
          | listR l2 =>
            exact ⟨K1, RO1, fun m hm => hm.elim,
              by simpa [occC, occV] using P1, fun ret hret => nomatch hret⟩
      | seq tag xs =>
        simp only [engine]
        rcases hl : engine denv fuel (.structL xs) st with ⟨st1, res1⟩
        have IH1 := IH (.structL xs) st hnod hro trivial
        rw [hl] at IH1
        obtain ⟨K1, RO1, F1, P1, OK1⟩ := IH1
        cases res1 with
        | error e =>
          exact ⟨K1, RO1, fun m hm => hm.elim,
            by simpa [occC, occV] using P1, fun ret hret => nomatch hret⟩
        | ok r1 =>
          cases r1 with
          | listR rs =>
            refine ⟨K1, RO1, fun m hm => hm.elim,
              by simpa [occC, occV] using P1, ?_⟩
            intro ret hret
            injection hret with h1
            subst h1
            have hk := OK1 (.listR rs) rfl
            constructor
            · simpa [occR, occC, occV] using hk.1
            · simpa [occR, occC, occV] using hk.2
          | val v2 =>
            exact ⟨K1, RO1, fun m hm => hm.elim,
              by simpa [occC, occV] using P1, fun ret hret => nomatch hret⟩
          | strR t2 =>
            exact ⟨K1, RO1, fun m hm => hm.elim,
              by simpa [occC, occV] using P1, fun ret hret => nomatch hret⟩
          | pairsR p2 =>
            exact ⟨K1, RO1, fun m hm => hm.elim,
              by simpa [occC, occV] using P1, fun ret hret => nomatch hret⟩
      | other tag =>
        show AcctOut i (.structV (.other tag)) st (st, .ok (.val (.other tag)))
        refine ⟨rfl, hro, fun m hm => hm.elim, Nat.le_add_right _ _, ?_⟩
        intro ret hret
        injection hret with h1
        subst h1
        exact ⟨by simp [occR, occC, occV], by simp [occR, occC, occV]⟩
    | structL vs =>
      cases vs with
      | nil =>
        show AcctOut i (.structL []) st (st, .ok (.listR []))
        refine ⟨rfl, hro, fun m hm => hm.elim, Nat.le_add_right _ _, ?_⟩
        intro ret hret
        injection hret with h1
        subst h1
        exact ⟨by simp [occR, occC, occL], by simp [occR, occC, occL]⟩
      | cons x xs =>
        simp only [engine]
        rcases hx : engine denv fuel (.structV x) st with ⟨st1, res1⟩
        have IH1 := IH (.structV x) st hnod hro trivial
        rw [hx] at IH1
        obtain ⟨K1, RO1, F1, P1, OK1⟩ := IH1
        cases res1 with
        | error e =>
          refine ⟨K1, RO1, fun m hm => hm.elim, ?_,
            fun ret hret => nomatch hret⟩
          simp only [occC, occL] at P1 ⊢
          omega
        | ok r1 =>
          cases r1 with
          | val r =>
            show AcctOut i (.structL (x :: xs)) st
              (match engine denv fuel (.structL xs) st1 with
                | (st'', .ok (.listR rs)) => (st'', .ok (.listR (r :: rs)))
                | (st'', .ok _) => (st'', .error .typeMismatch)
                | (st'', .error e) => (st'', .error e))
            rcases hxs : engine denv fuel (.structL xs) st1 with ⟨st2, res2⟩
            have IH2 := IH (.structL xs) st1 (K1 ▸ hnod) RO1 trivial
            rw [hxs] at IH2
            obtain ⟨K2, RO2, F2, P2, OK2⟩ := IH2
            have hOK1 := OK1 (.val r) rfl
            simp only [occR, occC] at hOK1
            cases res2 with
            | error e =>
              refine ⟨K2.trans K1, RO2, fun m hm => hm.elim, ?_,
                fun ret hret => nomatch hret⟩
              simp only [occC, occL] at P1 P2 ⊢
              omega
            | ok r2 =>
              cases r2 with
              | listR rs =>
                refine ⟨K2.trans K1, RO2, fun m hm => hm.elim, ?_, ?_⟩
                · simp only [occC, occL] at P1 P2 ⊢
                  omega
                · intro ret hret
                  injection hret with h1
                  subst h1
                  have hOK2 := OK2 (.listR rs) rfl
                  simp only [occR, occC] at hOK2
                  constructor
                  · simp only [occR, occC, occL]
                    omega
                  · simp only [occR, occC, occL]
                    omega
              | val v2 =>
                refine ⟨K2.trans K1, RO2, fun m hm => hm.elim, ?_,
                  fun ret hret => nomatch hret⟩
                simp only [occC, occL] at P1 P2 ⊢
                omega
              | strR t2 =>
                refine ⟨K2.trans K1, RO2, fun m hm => hm.elim, ?_,
                  fun ret hret => nomatch hret⟩
                simp only [occC, occL] at P1 P2 ⊢
                omega
              | pairsR p2 =>
                refine ⟨K2.trans K1, RO2, fun m hm => hm.elim, ?_,
                  fun ret hret => nomatch hret⟩
                simp only [occC, occL] at P1 P2 ⊢
                omega
          | strR t1 =>
            refine ⟨K1, RO1, fun m hm => hm.elim, ?_,
              fun ret hret => nomatch hret⟩
            simp only [occC, occL] at P1 ⊢
            omega
          | listR l1 =>
            refine ⟨K1, RO1, fun m hm => hm.elim, ?_,
              fun ret hret => nomatch hret⟩
            simp only [occC, occL] at P1 ⊢
            omega
          | pairsR p1 =>
            refine ⟨K1, RO1, fun m hm => hm.elim, ?_,
              fun ret hret => nomatch hret⟩
            simp only [occC, occL] at P1 ⊢
            omega
    | structP ps =>
      cases ps with
      | nil =>
        show AcctOut i (.structP []) st (st, .ok (.pairsR []))
        refine ⟨rfl, hro, fun m hm => hm.elim, Nat.le_add_right _ _, ?_⟩
        intro ret hret
        injection hret with h1
        subst h1
        exact ⟨by simp [occR, occC, occP], by simp [occR, occC, occP]⟩
      | cons p rest =>
        simp only [engine]
        rcases hk1 : engine denv fuel (.structV p.1) st with ⟨st1, res1⟩
        have IH1 := IH (.structV p.1) st hnod hro trivial
        rw [hk1] at IH1
        obtain ⟨K1, RO1, F1, P1, OK1⟩ := IH1
        cases res1 with
        | error e =>
          refine ⟨K1, RO1, fun m hm => hm.elim, ?_,
            fun ret hret => nomatch hret⟩
          simp only [occC, occP] at P1 ⊢
          omega
        | ok r1 =>
          cases r1 with
          | val rk =>
            show AcctOut i (.structP (p :: rest)) st
              (match engine denv fuel (.structV p.2) st1 with
                | (st2, .ok (.val rv)) =>
                  match engine denv fuel (.structP rest) st2 with
                  | (st3, .ok (.pairsR rs)) => (st3, .ok (.pairsR ((rk, rv) :: rs)))
                  | (st3, .ok _) => (st3, .error .typeMismatch)
                  | (st3, .error e) => (st3, .error e)
                | (st2, .ok _) => (st2, .error .typeMismatch)
                | (st2, .error e) => (st2, .error e))
            rcases hv1 : engine denv fuel (.structV p.2) st1 with ⟨st2, res2⟩
            have IH2 := IH (.structV p.2) st1 (K1 ▸ hnod) RO1 trivial
            rw [hv1] at IH2
            obtain ⟨K2, RO2, F2, P2, OK2⟩ := IH2
            have hOK1 := OK1 (.val rk) rfl
            simp only [occR, occC] at hOK1
            cases res2 with
            | error e =>
              refine ⟨K2.trans K1, RO2, fun m hm => hm.elim, ?_,
                fun ret hret => nomatch hret⟩
              simp only [occC, occP] at P1 P2 ⊢
              omega
            | ok r2 =>
              cases r2 with
              | val rv =>
                show AcctOut i (.structP (p :: rest)) st
                  (match engine denv fuel (.structP rest) st2 with
                    | (st3, .ok (.pairsR rs)) => (st3, .ok (.pairsR ((rk, rv) :: rs)))
                    | (st3, .ok _) => (st3, .error .typeMismatch)
                    | (st3, .error e) => (st3, .error e))
                rcases hr : engine denv fuel (.structP rest) st2 with ⟨st3, res3⟩
                have IH3 := IH (.structP rest) st2
                  ((K2.trans K1) ▸ hnod) RO2 trivial
                rw [hr] at IH3
                obtain ⟨K3, RO3, F3, P3, OK3⟩ := IH3
                have hOK2 := OK2 (.val rv) rfl
                simp only [occR, occC] at hOK2
                cases res3 with
                | error e =>
                  refine ⟨(K3.trans K2).trans K1, RO3, fun m hm => hm.elim, ?_,
                    fun ret hret => nomatch hret⟩
                  simp only [occC, occP] at P1 P2 P3 ⊢
                  omega
                | ok r3 =>
                  cases r3 with
                  | pairsR rs =>
                    refine ⟨(K3.trans K2).trans K1, RO3,
                      fun m hm => hm.elim, ?_, ?_⟩
                    · simp only [occC, occP] at P1 P2 P3 ⊢
                      omega
                    · intro ret hret
                      injection hret with h1
                      subst h1
                      have hOK3 := OK3 (.pairsR rs) rfl
                      simp only [occR, occC] at hOK3
                      constructor
                      · simp only [occR, occC, occP]
                        omega
                      · simp only [occR, occC, occP]
                        omega
                  | val v3 =>
                    refine ⟨(K3.trans K2).trans K1, RO3,
                      fun m hm => hm.elim, ?_, fun ret hret => nomatch hret⟩
                    simp only [occC, occP] at P1 P2 P3 ⊢
                    omega
                  | strR t3 =>
                    refine ⟨(K3.trans K2).trans K1, RO3,
                      fun m hm => hm.elim, ?_, fun ret hret => nomatch hret⟩
                    simp only [occC, occP] at P1 P2 P3 ⊢
                    omega
                  | listR l3 =>
                    refine ⟨(K3.trans K2).trans K1, RO3,
                      fun m hm => hm.elim, ?_, fun ret hret => nomatch hret⟩
                    simp only [occC, occP] at P1 P2 P3 ⊢
                    omega
              | strR t2 =>
                refine ⟨K2.trans K1, RO2, fun m hm => hm.elim, ?_,
                  fun ret hret => nomatch hret⟩
                simp only [occC, occP] at P1 P2 ⊢
                omega
              | listR l2 =>
                refine ⟨K2.trans K1, RO2, fun m hm => hm.elim, ?_,
                  fun ret hret => nomatch hret⟩
                simp only [occC, occP] at P1 P2 ⊢
                omega
              | pairsR pr2 =>
                refine ⟨K2.trans K1, RO2, fun m hm => hm.elim, ?_,
                  fun ret hret => nomatch hret⟩
                simp only [occC, occP] at P1 P2 ⊢
                omega
          | strR t1 =>
            refine ⟨K1, RO1, fun m hm => hm.elim, ?_,
              fun ret hret => nomatch hret⟩
            simp only [occC, occP] at P1 ⊢
            omega
          | listR l1 =>
            refine ⟨K1, RO1, fun m hm => hm.elim, ?_,
              fun ret hret => nomatch hret⟩
            simp only [occC, occP] at P1 ⊢
            omega
          | pairsR pr1 =>
            refine ⟨K1, RO1, fun m hm => hm.elim, ?_,
              fun ret hret => nomatch hret⟩
            simp only [occC, occP] at P1 ⊢
            omega

/-- The flatten loop invokes the deferred id at most once: the potential
(invocations so far plus remaining table occurrences) never exceeds one
when it starts at most at one. -/
theorem flattenAcct (i : Nat) (denv : Nat → Table → Value)
    (Hdenv : ∀ j t, occV i (denv j t) = 0) (fuel : Nat) :
    ∀ ks st, (st.table.map Prod.fst).Nodup → RootOnly i st.table →
    st.log.count i + occT i st.table ≤ 1 →
    (flattenGo denv fuel ks st).1.log.count i ≤ 1 := by
  intro ks
  induction ks with
  | nil =>
    intro st hnod hro hinv
    show st.log.count i ≤ 1
    omega
  | cons k ks ih =>
    intro st hnod hro hinv
    simp only [flattenGo]
    rcases hlk : alookup st.table k with _ | v
    · exact ih st hnod hro hinv
    · show (match engine denv fuel (.structV v) st with
        | (st1, .ok (.val r)) =>
          flattenGo denv fuel ks ⟨dictInsert st1.table k r, st1.log⟩
        | (st1, .ok _) => (st1, .error .typeMismatch)
        | (st1, .error e) => (st1, .error e)).1.log.count i ≤ 1
      rcases hrun : engine denv fuel (.structV v) st with ⟨st1, res1⟩
      have HA := engineAcct i denv Hdenv fuel (.structV v) st hnod hro trivial
      rw [hrun] at HA
      obtain ⟨K1, RO1, F1, P1, OK1⟩ := HA
      by_cases hocc : occV i v = 0
      · cases res1 with
        | error e =>
          show st1.log.count i ≤ 1
          simp only [phi, occC, hocc] at P1
          omega
        | ok r1 =>
          cases r1 with
          | val r =>
            have hOK := OK1 (.val r) rfl
            simp only [occR, occC, phi] at hOK
            have hocc_r : occV i r = 0 := by omega
            apply ih
            · have hmem : k ∈ st1.table.map Prod.fst := by
                rw [K1]
                exact alookup_mem_keys _ _ _ hlk
              show ((dictInsert st1.table k r).map Prod.fst).Nodup
              rw [keys_dictInsert _ _ _ hmem, K1]
              exact hnod
            · exact RootOnly_dictInsert i st1.table k r RO1 hocc_r
            · show st1.log.count i + occT i (dictInsert st1.table k r) ≤ 1
              have hle := occT_dictInsert_le i st1.table k r
              simp only [phi, occC, hocc] at P1
              omega
          | strR t =>
            show st1.log.count i ≤ 1
            simp only [phi, occC, hocc] at P1
            omega
          | listR l =>
            show st1.log.count i ≤ 1
            simp only [phi, occC, hocc] at P1
            omega
          | pairsR p =>
            show st1.log.count i ≤ 1
            simp only [phi, occC, hocc] at P1
            omega
      · have hv := hro k v hlk hocc
        subst hv
        cases fuel with
        | zero =>
          have h0 : ((st, .error .fuel) : St × Except SubErr EngineRet) =
              (st1, res1) := hrun
          injection h0 with h1 h2
          subst h1
          subst h2
          show st.log.count i ≤ 1
          omega
        | succ f2 =>
          cases f2 with
          | zero =>
            have h0 : ((st, .error .fuel) : St × Except SubErr EngineRet) =
                (st1, res1) := hrun
            injection h0 with h1 h2
            subst h1
            subst h2
            show st.log.count i ≤ 1
            omega
          | succ f3 =>
            have h0 : ((⟨st.table, st.log ++ [i]⟩,
                .ok (.val (denv i st.table))) :
                St × Except SubErr EngineRet) = (st1, res1) := hrun
            injection h0 with h1 h2
            subst h1
            subst h2
            have hone : occV i (Value.deferred i) = 1 := by simp [occV]
            have hcnt : (st.log ++ [i]).count i = st.log.count i + 1 := by
              rw [count_append_singleton]
              simp
            have hex := occT_dictInsert_exact i st.table k (.deferred i)
              (denv i st.table) hlk
            have hz : occV i (denv i st.table) = 0 := Hdenv i st.table
            have hge : occV i (Value.deferred i) ≤ occT i st.table :=
              occV_lookup_le i st.table k _ hlk
            apply ih
            · have hmem : k ∈ st.table.map Prod.fst :=
                alookup_mem_keys _ _ _ hlk
              show ((dictInsert st.table k (denv i st.table)).map
                Prod.fst).Nodup
              rw [keys_dictInsert _ _ _ hmem]
              exact hnod
            · exact RootOnly_dictInsert i st.table k (denv i st.table) hro hz
            · show (st.log ++ [i]).count i +
                occT i (dictInsert st.table k (denv i st.table)) ≤ 1
              rw [hcnt]
              omega

/-! ## C4 -/

/-- C4: within one `flatten` call, the deferred computation associated
with a name is invoked at most once.  The hypotheses say that the
computation (id `i`) is the entire value of entry `name`, occurs nowhere
else in the table, has not been invoked yet, that deferred results are
plain values (they contain no deferred computation), and that the table
is a dictionary (distinct keys).  The conclusion bounds the number of
invocations of `i` recorded during the whole flatten run — the first
resolution writes the result back under `name` (the memoization in
`_expand` and in the `flatten` loop), so every later resolution of
`name` reuses the cached value instead of calling the computation
again. -/
theorem C4_deferred_invoked_at_most_once (denv : Nat → Table → Value)
    (i : Nat) (st : St) (fuel : Nat) (name : Str)
    (Hdenv : ∀ j t, occV i (denv j t) = 0)
    (hnod : (st.table.map Prod.fst).Nodup)
    (hro : RootOnly i st.table)
    (hname : alookup st.table name = some (.deferred i))
    (hlog : st.log = [])
    (huniq : occT i st.table ≤ 1) :
    (flatten denv fuel st).1.log.count i ≤ 1 := by
  have hinv : st.log.count i + occT i st.table ≤ 1 := by
    rw [hlog]
    simpa using huniq
  exact flattenAcct i denv Hdenv fuel (st.table.map Prod.fst) st hnod hro hinv

/-- Witness for C4 at a concrete table: `{K: deferred 7, A: "@K@ @K@"}`
with a deferred environment returning the text `R`. -/
theorem C4_witness :
    (∀ (j : Nat) (t : Table),
      occV 7 ((fun (_ : Nat) (_ : Table) => Value.text (("R").toList)) j t) = 0) ∧
    alookup [((("K").toList), Value.deferred 7),
        ((("A").toList), Value.text (("@K@ @K@").toList))] (("K").toList) =
      some (.deferred 7) ∧
    ((flatten (fun _ _ => Value.text (("R").toList)) 20
        ⟨[((("K").toList), Value.deferred 7),
          ((("A").toList), Value.text (("@K@ @K@").toList))], []⟩).1.log.count 7
      ≤ 1) := by
  refine ⟨fun j t => by simp [occV], rfl, ?_⟩
  refine C4_deferred_invoked_at_most_once (fun _ _ => Value.text (("R").toList))
    7 ⟨[((("K").toList), Value.deferred 7),
      ((("A").toList), Value.text (("@K@ @K@").toList))], []⟩ 20 (("K").toList)
    (fun j t => by simp [occV]) (by decide) ?_ rfl rfl ?_
  · intro k v h hocc
    simp only [alookup] at h
    split_ifs at h with h1 h2
    · injection h with h3
      rw [← h3]
    · injection h with h3
      rw [← h3] at hocc
      exact absurd (by simp [occV]) hocc
  · simp [occT, occV]
